import Mathlib

/-!
Shallow embedding of the glyph rasterization and bit-packing pipeline of
`bmpfont.cpp` (function `MainWindow::saveButton` and the global repertoire
`chars`).  Coordinates and metrics are Qt `int`s, modelled as `Int`.  The
painted raster is modelled as a total function giving the blue channel of
the pixel at `(x, y)`; the metrics oracle and the glyph painter are the
external capabilities the core consumes, so both are parameters.
-/

namespace BmpFont

/-- Qt `QRect` as consumed by the code: position `(x, y)` and size `(w, h)`.
Qt stores corners `x1 = x`, `x2 = x + w - 1` (same for `y`), which fixes the
semantics of the setters below. -/
structure Rect where
  x : Int
  y : Int
  w : Int
  h : Int
deriving DecidableEq

/-- Qt `QRect::setY` (`setTop`): sets the top edge, never moves the bottom
edge, so the height becomes `y + h - a`. -/
def Rect.setY (r : Rect) (a : Int) : Rect :=
  { x := r.x, y := a, w := r.w, h := r.y + r.h - a }

/-- Qt `QRect::setHeight`: moves the bottom edge, keeps the top edge. -/
def Rect.setHeight (r : Rect) (v : Int) : Rect :=
  { x := r.x, y := r.y, w := r.w, h := v }

/-- Qt `QRect::setX` (`setLeft`): sets the left edge, never moves the right
edge, so the width becomes `x + w - a`. -/
def Rect.setX (r : Rect) (a : Int) : Rect :=
  { x := a, y := r.y, w := r.x + r.w - a, h := r.h }

/-- Blue channel of the painted 100x100 raster at a coordinate; the code
reads it through `qBlue(image.pixel(x, y))`. -/
abbrev Image : Type := Int → Int → Nat

/-- The metrics oracle consumed by the core: `QFontMetrics::height`,
`QFontMetrics::boundingRect` and `QFontMetrics::horizontalAdvance`. -/
structure FontMetrics where
  height : Int
  boundingRect : String → Rect
  horizontalAdvance : String → Int

/-- The glyph painter capability: painting character `ch` into the cleared
raster, where the second argument is the rectangle handed to
`QPainter::drawText` (the code passes the modified bounding rect). -/
abbrev Painter : Type := String → Rect → Image

/-- Inner loop of the packer (lines 139-147 of `bmpfont.cpp`): for
`x = 0 .. left-1`, a pixel whose blue channel is `< 128` sets bit
`(left - 1) - x` of `value`. -/
def packByte (img : Image) (xByte y left : Int) : Nat :=
  (List.range left.toNat).foldl
    (fun value (x : Nat) =>
      if img (xByte + (x : Int)) y < 128 then
        value ||| 1 <<< (left - 1 - (x : Int)).toNat
      else value)
    0

/-- Column-group loop of the packer (line 137): `for (xByte = ...; xByte < w;
xByte += 8)`, emitting one byte per group with `left = min(w - xByte, 8)`
(lines 140-142).  The `Nat` argument is fuel bounding the remaining
iteration count; `packRow` supplies enough. -/
def packRowGo (img : Image) (w y : Int) : Nat → Int → List Nat
  | 0, _ => []
  | fuel + 1, xByte =>
    if xByte < w then
      packByte img xByte y (min (w - xByte) 8) :: packRowGo img w y fuel (xByte + 8)
    else []

/-- One raster row of packed bytes: the column scan starts at `xByte = 0`
(the code runs it after `r.setX(0)`, so `r.x() = 0` and the bound
`r.x() + r.width()` is `w`). -/
def packRow (img : Image) (w y : Int) : List Nat :=
  packRowGo img w y w.toNat 0

/-- Row loop of the packer (line 135): `for (y = 0; y < charHeight; y++)`,
concatenating the packed bytes of every row. -/
def packGlyph (img : Image) (hgt w : Int) : List Nat :=
  ((List.range hgt.toNat).map (fun (y : Nat) => packRow img w (y : Int))).flatten

/-- The rectangle the code builds before painting and scanning (lines
126-129): `r.setY(0); r.setHeight(charHeight); r.setX(0)` applied to the
oracle's bounding rect. -/
def paintRect (m : FontMetrics) (ch : String) : Rect :=
  (((m.boundingRect ch).setY 0).setHeight m.height).setX 0

/-- Packed byte stream of one character (lines 122-151): clear, paint into
the modified rect, then scan rows `[0, height)` and column groups up to
`r.x() + r.width()`. -/
def glyphBytes (m : FontMetrics) (paint : Painter) (ch : String) : List Nat :=
  packGlyph (paint ch (paintRect m ch)) m.height ((paintRect m ch).x + (paintRect m ch).w)

/-- Reported width of one character (lines 159-161): bounding rect, then
`r.setX(0)`, then `r.x() + r.width()`. -/
def widthOf (m : FontMetrics) (ch : String) : Int :=
  ((m.boundingRect ch).setX 0).x + ((m.boundingRect ch).setX 0).w

/-- Reported advance of one character (line 169). -/
def advanceOf (m : FontMetrics) (ch : String) : Int :=
  m.horizontalAdvance ch

/-- The fixed repertoire `chars` of `bmpfont.cpp` (lines 13-24), in source
order. -/
def chars : List String := [
  " ", "!", "\x22", "#", "$", "%", "&", "\x27", "(", ")",
  "*", "+", ",", "-", ".", "/", "0", "1", "2", "3",
  "4", "5", "6", "7", "8", "9", ":", ";", "<", "=",
  ">", "?", "@", "A", "B", "C", "D", "E", "F", "G",
  "H", "I", "J", "K", "L", "M", "N", "O", "P", "Q",
  "R", "S", "T", "U", "V", "W", "X", "Y", "Z", "[",
  "\x5c", "]", "^", "_", "\x60", "a", "b", "c", "d", "e",
  "f", "g", "h", "i", "j", "k", "l", "m", "n", "o",
  "p", "q", "r", "s", "t", "u", "v", "w", "x", "y",
  "z", "\x7b", "|", "\x7d", "~", "ᴇ", "∞", "×", "÷", "±",
  "°", "∀", "∅", "∈", "∉", "∙", "∫", "≈", "≤", "≥",
  "⋂", "⋃", "←", "↑", "→", "↓", "↵", "⬏", "α", "β",
  "Γ", "γ", "Δ", "δ", "ϵ", "ϝ", "ζ", "η", "Θ", "θ",
  "ι", "κ", "Λ", "λ", "μ", "ν", "Ξ", "ξ", "Π", "π",
  "ρ", "Σ", "σ", "τ", "υ", "Φ", "ϕ", "χ", "Ψ", "ψ",
  "Ω", "ω", "…", "▪", "◂", "▴", "▸", "▾", "≠", "≷",
  "∡", "²", "³", "ˣ", "₂", "ℹ", "⟪", "⟫", "⦗", "⦘"]

/-- The `chars` field of the emitted table: one packed byte array per
repertoire entry, in repertoire order (loop at line 122). -/
def fontChars (m : FontMetrics) (paint : Painter) : List (List Nat) :=
  chars.map (glyphBytes m paint)

/-- The `width` field of the emitted table (loop at line 155). -/
def fontWidths (m : FontMetrics) : List Int :=
  chars.map (widthOf m)

/-- The `advance` field of the emitted table (loop at line 165). -/
def fontAdvances (m : FontMetrics) : List Int :=
  chars.map (advanceOf m)

/-! The emitter (the textual form of the four fields). -/

/-- One packed byte as emitted at line 148: `fprintf(fp, "0x%x,", value)`,
i.e. the C `%x` conversion (minimal lowercase hex digits) between a `0x`
prefix and a trailing comma.  `Nat.toDigits 16` is exactly that minimal
lowercase representation. -/
def emitByte (v : Nat) : String :=
  "0x" ++ String.mk (Nat.toDigits 16 v) ++ ","

/-- One glyph's byte array as emitted (lines 134, 148, 151). -/
def emitGlyph (bs : List Nat) : String :=
  "        &[" ++ String.join (bs.map emitByte) ++ "],\n"

/-- The loop emitting the `width` and `advance` sequences (lines 155-162 and
165-170): each value as `%d` plus a comma, with `"\n        "` printed first
whenever `i > 0 && i % 0x20 == 0`. -/
def emitSeqGo : Nat → List Int → String
  | _, [] => ""
  | i, v :: rest =>
    (if 0 < i ∧ i % 32 = 0 then "\n        " else "")
      ++ toString v ++ "," ++ emitSeqGo (i + 1) rest

/-- A whole wrapped sequence, starting at index 0. -/
def emitSeq (vals : List Int) : String := emitSeqGo 0 vals

/-! Spec-side characterizations of the emitted text, used to state the
output-grammar claim. -/

/-- A lowercase hexadecimal digit character: one of the codes of `0`-`9`
(48-57) or of `a`-`f` (97-102). -/
abbrev lowerHexDigit (c : Char) : Prop :=
  (48 ≤ c.toNat ∧ c.toNat ≤ 57) ∨ (97 ≤ c.toNat ∧ c.toNat ≤ 102)

/-- Numeric value of a hex digit character. -/
def hexCharVal (c : Char) : Nat :=
  if c.toNat ≤ 57 then c.toNat - 48 else c.toNat - 87

/-- Value denoted by a big-endian string of hex digits. -/
def hexValue (ds : List Char) : Nat :=
  ds.foldl (fun a c => 16 * a + hexCharVal c) 0

/-- The digit list is a faithful lowercase hex spelling of `v` with no
zero-padding: nonempty, lowercase hex digits only, no leading zero except
for the single digit of `v = 0`, and it denotes `v`. -/
abbrev hexLowerNoPad (ds : List Char) (v : Nat) : Prop :=
  ds ≠ [] ∧ (∀ c ∈ ds, lowerHexDigit c)
    ∧ (1 < ds.length → ds.head? ≠ some '0') ∧ hexValue ds = v

/-- The wrapped-sequence grammar as the spec words it: each entry is the
decimal integer followed by a comma, and a line break (with the 8-space
indent) precedes every entry whose index is a nonzero multiple of 32. -/
def wrappedSeq (vals : List Int) : String :=
  String.join (vals.mapIdx
    (fun i v => (if i ≠ 0 ∧ i % 32 = 0 then "\n        " else "") ++ toString v ++ ","))

/-! Concrete oracles used to exercise the pipeline on literal inputs. -/

/-- Metrics oracle returning the same bounding rect and advance for every
character. -/
def constMetrics (r : Rect) (hgt adv : Int) : FontMetrics :=
  { height := hgt, boundingRect := fun _ => r, horizontalAdvance := fun _ => adv }

/-- Painter leaving every pixel at the white background (blue 255). -/
def whitePainter : Painter := fun _ _ _ _ => 255

/-- Painter turning every pixel black (blue 0). -/
def blackPainter : Painter := fun _ _ _ _ => 0

/-- Painter that is white everywhere inside the 100x100 raster and black
only at the out-of-bounds coordinate `(100, 0)`. -/
def cornerPainter : Painter := fun _ _ x y => if x = 100 ∧ y = 0 then 0 else 255

/-! Helper lemmas about the packing loops. -/

/-- Bits accumulated by an or-fold: bit `m` of the result is bit `m` of the
accumulator or a contribution from some list element. -/
theorem testBit_foldl_if_or (P : Nat → Prop) [DecidablePred P] (pos : Nat → Nat)
    (l : List Nat) : ∀ (v m : Nat),
    Nat.testBit (l.foldl (fun acc i => if P i then acc ||| 1 <<< pos i else acc) v) m
      = (Nat.testBit v m || l.any (fun i => decide (P i) && decide (pos i = m))) := by
  induction l with
  | nil => intro v m; simp
  | cons a l ih =>
    intro v m
    simp only [List.foldl_cons, List.any_cons]
    rw [ih]
    by_cases h : P a
    · rw [if_pos h]
      simp only [Nat.testBit_or, Nat.one_shiftLeft, Nat.testBit_two_pow, h,
        decide_True, Bool.true_and, Bool.or_assoc]
    · simp [h]

/-- An or-fold of bits at positions below 8 stays below 256. -/
theorem foldl_if_or_lt (P : Nat → Prop) [DecidablePred P] (pos : Nat → Nat) :
    ∀ (l : List Nat) (v : Nat), v < 256 → (∀ i ∈ l, pos i < 8) →
    (l.foldl (fun acc i => if P i then acc ||| 1 <<< pos i else acc) v) < 256 := by
  intro l
  induction l with
  | nil => intro v hv _; simpa using hv
  | cons a l ih =>
    intro v hv hpos
    simp only [List.foldl_cons]
    refine ih _ ?_ (fun i hi => hpos i (List.mem_cons_of_mem a hi))
    by_cases h : P a
    · rw [if_pos h]
      have h2 : (256 : Nat) = 2 ^ 8 := by norm_num
      rw [h2] at hv ⊢
      refine Nat.or_lt_two_pow hv ?_
      rw [Nat.one_shiftLeft]
      exact Nat.pow_lt_pow_right Nat.one_lt_two (hpos a (List.mem_cons_self a l))
    · rwa [if_neg h]

/-- Which bit of the packed byte each pixel sets: bit `(left - 1) - x` of
`packByte img xByte y left` is set exactly when the pixel at
`(xByte + x, y)` is below the threshold. -/
theorem packByte_testBit (img : Image) (xByte y left x : Int)
    (h0 : 0 ≤ x) (hx : x < left) :
    Nat.testBit (packByte img xByte y left) (left - 1 - x).toNat = true
      ↔ img (xByte + x) y < 128 := by
  unfold packByte
  rw [testBit_foldl_if_or (fun i => img (xByte + (i : Int)) y < 128)
    (fun i => (left - 1 - (i : Int)).toNat)]
  simp only [Nat.zero_testBit, Bool.false_or, List.any_eq_true, List.mem_range,
    Bool.and_eq_true, decide_eq_true_eq]
  constructor
  · rintro ⟨i, hi, hP, hposi⟩
    have hix : (i : Int) = x := by omega
    rwa [hix] at hP
  · intro h
    refine ⟨x.toNat, by omega, ?_, by omega⟩
    rwa [Int.toNat_of_nonneg h0]

/-- Every packed byte of a group of at most 8 columns fits in one byte. -/
theorem packByte_le (img : Image) (xByte y left : Int) (h8 : left ≤ 8) :
    packByte img xByte y left ≤ 255 := by
  unfold packByte
  refine Nat.le_of_lt_succ (foldl_if_or_lt (fun i => img (xByte + (i : Int)) y < 128)
    (fun i => (left - 1 - (i : Int)).toNat) (List.range left.toNat) 0 (by norm_num) ?_)
  intro i _
  show (left - 1 - (i : Int)).toNat < 8
  omega

/-- Closed form of the column-group loop: starting at `xByte` with enough
fuel, the groups sit at `xByte + 8 * k`. -/
theorem packRowGo_eq_map (img : Image) (w y : Int) :
    ∀ (fuel : Nat) (xByte : Int), (w - xByte).toNat ≤ fuel →
    packRowGo img w y fuel xByte
      = (List.range (((w - xByte).toNat + 7) / 8)).map
          (fun (k : Nat) => packByte img (xByte + 8 * (k : Int)) y (min (w - (xByte + 8 * (k : Int))) 8)) := by
  intro fuel
  induction fuel with
  | zero =>
    intro xByte hfuel
    have hz : ((w - xByte).toNat + 7) / 8 = 0 := by omega
    simp [packRowGo, hz]
  | succ fuel ih =>
    intro xByte hfuel
    by_cases hlt : xByte < w
    · have hcnt : ((w - xByte).toNat + 7) / 8
          = (((w - (xByte + 8)).toNat + 7) / 8) + 1 := by omega
      rw [packRowGo, if_pos hlt, ih (xByte + 8) (by omega), hcnt,
        List.range_succ_eq_map, List.map_cons, List.map_map]
      refine congrArg₂ List.cons ?_ ?_
      · norm_num
      · refine List.map_congr_left (fun k _ => ?_)
        simp only [Function.comp_apply]
        have hk : xByte + 8 * ((Nat.succ k : Nat) : Int) = xByte + 8 + 8 * (k : Int) := by
          push_cast
          ring
        rw [hk]
    · have hz : ((w - xByte).toNat + 7) / 8 = 0 := by omega
      rw [packRowGo, if_neg hlt, hz]
      simp

/-- Closed form of one packed row: groups at columns `0, 8, 16, ...` while
`8 * k < w`, each of width `min (w - 8 * k) 8`. -/
theorem packRow_eq_map (img : Image) (w y : Int) :
    packRow img w y
      = (List.range ((w.toNat + 7) / 8)).map
          (fun (k : Nat) => packByte img (8 * (k : Int)) y (min (w - 8 * (k : Int)) 8)) := by
  unfold packRow
  rw [packRowGo_eq_map img w y w.toNat 0 (by omega)]
  simp

/-- Number of bytes per packed row. -/
theorem packRow_length (img : Image) (w y : Int) :
    (packRow img w y).length = (w.toNat + 7) / 8 := by
  rw [packRow_eq_map]; simp

/-- Number of bytes of a packed glyph. -/
theorem packGlyph_length (img : Image) (hgt w : Int) :
    (packGlyph img hgt w).length = hgt.toNat * ((w.toNat + 7) / 8) := by
  unfold packGlyph
  rw [List.length_flatten, List.map_map]
  have hconst : ((List.range hgt.toNat).map (List.length ∘ fun (y : Nat) => packRow img w (y : Int)))
      = (List.range hgt.toNat).map (fun (_ : Nat) => (w.toNat + 7) / 8) := by
    refine List.map_congr_left (fun a _ => ?_)
    simp [packRow_length]
  rw [hconst, List.map_const', List.sum_replicate, List.length_range, smul_eq_mul]

/-- The modified rectangle handed to the painter and the scan. -/
theorem paintRect_eq (m : FontMetrics) (ch : String) :
    paintRect m ch
      = ⟨0, 0, (m.boundingRect ch).x + (m.boundingRect ch).w, m.height⟩ := by
  simp [paintRect, Rect.setY, Rect.setHeight, Rect.setX]

/-- The reported width is the original right edge `rx + rw`. -/
theorem widthOf_eq (m : FontMetrics) (ch : String) :
    widthOf m ch = (m.boundingRect ch).x + (m.boundingRect ch).w := by
  simp [widthOf, Rect.setX]

/-- Every byte of a packed glyph is a `packByte` of a group of width at
most 8. -/
theorem glyphBytes_mem (m : FontMetrics) (p : Painter) (ch : String) (b : Nat)
    (hb : b ∈ glyphBytes m p ch) :
    ∃ (y k : Int) (left : Int), left ≤ 8
      ∧ b = packByte (p ch (paintRect m ch)) (8 * k) y left := by
  unfold glyphBytes packGlyph at hb
  rw [List.mem_flatten] at hb
  obtain ⟨row, hrow, hbrow⟩ := hb
  rw [List.mem_map] at hrow
  obtain ⟨y, _, rfl⟩ := hrow
  rw [packRow_eq_map, List.mem_map] at hbrow
  obtain ⟨k, _, rfl⟩ := hbrow
  exact ⟨(y : Int), (k : Int), _, min_le_right _ _, rfl⟩

/-- Folding string concatenation from any start only prepends it. -/
theorem foldl_append_string (l : List String) :
    ∀ t : String, l.foldl (fun r s => r ++ s) t = t ++ l.foldl (fun r s => r ++ s) "" := by
  induction l with
  | nil => intro t; simp
  | cons a l ih =>
    intro t
    simp only [List.foldl_cons]
    rw [ih (t ++ a), ih ("" ++ a), String.empty_append, String.append_assoc]

/-- Unfolding `String.join` one element at a time. -/
theorem string_join_cons (s : String) (l : List String) :
    String.join (s :: l) = s ++ String.join l := by
  show (s :: l).foldl (fun r s => r ++ s) "" = s ++ l.foldl (fun r s => r ++ s) ""
  rw [List.foldl_cons, foldl_append_string l ("" ++ s), String.empty_append]

/-- The emitter loop for the wrapped sequences, with the running index made
explicit. -/
theorem emitSeqGo_eq_mapIdx (vals : List Int) : ∀ n : Nat,
    emitSeqGo n vals = String.join (vals.mapIdx
      (fun i v => (if 0 < n + i ∧ (n + i) % 32 = 0 then "\n        " else "")
        ++ toString v ++ ",")) := by
  induction vals with
  | nil => intro n; simp [emitSeqGo, String.join]
  | cons v rest ih =>
    intro n
    rw [emitSeqGo, List.mapIdx_cons, string_join_cons, ih (n + 1)]
    have hfun :
        (fun (i : Nat) (v : Int) =>
          (if 0 < n + 1 + i ∧ (n + 1 + i) % 32 = 0 then "\n        " else "")
            ++ toString v ++ ",")
        = (fun (i : Nat) (v : Int) =>
          (if 0 < n + (i + 1) ∧ (n + (i + 1)) % 32 = 0 then "\n        " else "")
            ++ toString v ++ ",") := by
      funext i v
      have hadd : n + 1 + i = n + (i + 1) := by omega
      rw [hadd]
    rw [hfun]
    simp [String.append_assoc]

/-- The emitted wrapped sequence agrees with the spec-side grammar. -/
theorem emitSeq_eq_wrappedSeq (vals : List Int) : emitSeq vals = wrappedSeq vals := by
  unfold emitSeq wrappedSeq
  rw [emitSeqGo_eq_mapIdx vals 0]
  refine congrArg String.join (congrArg (fun f => List.mapIdx f vals) ?_)
  funext i v
  by_cases hi : i = 0
  · simp [hi]
  · simp [hi, Nat.pos_of_ne_zero hi]

set_option maxRecDepth 4000 in
/-- The `%x` digits of every byte value are minimal lowercase hex. -/
theorem toDigits_hexLowerNoPad : ∀ v : Nat, v ≤ 255 → hexLowerNoPad (Nat.toDigits 16 v) v := by
  decide

/-- The column scan exactly as claim C2 words it: starting at `xByte = rx`,
stepping by 8, while `xByte < rx + rw` (this is `packRowGo` launched at `rx`
instead of 0, with fuel covering all `ceil(rw / 8)` groups). -/
def claimScanRow (img : Image) (rx rw y : Int) : List Nat :=
  packRowGo img (rx + rw) y rw.toNat rx

/-- A glyph packed with claim C2's scan (rows as in the code, columns
starting at `rx`). -/
def claimGlyphBytes (m : FontMetrics) (p : Painter) (ch : String) : List Nat :=
  ((List.range m.height.toNat).map
    (fun (y : Nat) => claimScanRow (p ch (paintRect m ch))
      (m.boundingRect ch).x (m.boundingRect ch).w (y : Int))).flatten

/-- A metrics oracle equal to `m` except that the bounding rect of `ch0`
has its `y` and `h` components replaced. -/
def overrideYH (m : FontMetrics) (ch0 : String) (ry rh : Int) : FontMetrics :=
  { height := m.height,
    boundingRect := fun ch =>
      if ch = ch0 then
        { x := (m.boundingRect ch).x, y := ry, w := (m.boundingRect ch).w, h := rh }
      else m.boundingRect ch,
    horizontalAdvance := m.horizontalAdvance }

/-- An image whose only black pixel is at `(1, 0)`. -/
def dotImage : Image := fun x y => if x = 1 ∧ y = 0 then 0 else 255

/-! Claims. -/

/-- C1, counterexample: for the oracle bounding rect `(1, 0, 1, 1)` the
reported width is 2, not the rect's width 1, so the reported `width_px`
does not equal `rw`. -/
theorem c1_counterexample :
    widthOf (constMetrics ⟨1, 0, 1, 1⟩ 1 0) "A" = 2
  ∧ ((constMetrics ⟨1, 0, 1, 1⟩ 1 0).boundingRect "A").w = 1
  ∧ ¬ widthOf (constMetrics ⟨1, 0, 1, 1⟩ 1 0) "A"
      = ((constMetrics ⟨1, 0, 1, 1⟩ 1 0).boundingRect "A").w := by
  decide

/-- C1, amended: the reported `width_px` equals `rx + rw`, the bounding
rect's right edge interpreted from origin 0 (`QRect::setX(0)` keeps the
right edge, so it changes the width); it equals `rw` only when `rx = 0`.
The whole `width` sequence reports these right edges. -/
theorem c1_width_is_right_edge : ∀ (m : FontMetrics),
    (∀ ch : String, widthOf m ch = (m.boundingRect ch).x + (m.boundingRect ch).w)
  ∧ fontWidths m
      = chars.map (fun ch => (m.boundingRect ch).x + (m.boundingRect ch).w) := by
  intro m
  refine ⟨fun ch => widthOf_eq m ch, ?_⟩
  unfold fontWidths
  exact List.map_congr_left (fun ch _ => widthOf_eq m ch)

/-- C2, counterexample: for bounding rect `(9, 0, 1, 1)`, height 1 and an
all-black raster, the code packs two bytes starting from column 0
(`[0xff, 0x3]`), while the claimed scan starting at `rx = 9` would pack a
single byte `[0x1]`. -/
theorem c2_counterexample :
    glyphBytes (constMetrics ⟨9, 0, 1, 1⟩ 1 0) blackPainter "A" = [255, 3]
  ∧ claimGlyphBytes (constMetrics ⟨9, 0, 1, 1⟩ 1 0) blackPainter "A" = [1]
  ∧ glyphBytes (constMetrics ⟨9, 0, 1, 1⟩ 1 0) blackPainter "A"
      ≠ claimGlyphBytes (constMetrics ⟨9, 0, 1, 1⟩ 1 0) blackPainter "A" := by
  decide

/-- C2, amended: the column scan starts at `xByte = 0` (the code resets the
rect's left edge before scanning), steps by 8 while `xByte < rx + rw`, and
group `k` sits at column `8 * k` covering `min (8, (rx + rw) - 8 * k)`
columns; a glyph with `rx > 0` is packed starting from raster column 0. -/
theorem c2_scan_from_zero : ∀ (m : FontMetrics) (p : Painter) (ch : String),
    glyphBytes m p ch
      = ((List.range m.height.toNat).map (fun (yy : Nat) =>
          (List.range ((((m.boundingRect ch).x + (m.boundingRect ch).w).toNat + 7) / 8)).map
            (fun (k : Nat) => packByte (p ch (paintRect m ch)) (8 * (k : Int)) (yy : Int)
              (min ((m.boundingRect ch).x + (m.boundingRect ch).w - 8 * (k : Int)) 8)))).flatten := by
  intro m p ch
  have hW : (paintRect m ch).x + (paintRect m ch).w
      = (m.boundingRect ch).x + (m.boundingRect ch).w := by
    rw [paintRect_eq]
    simp
  unfold glyphBytes packGlyph
  rw [hW]
  exact congrArg List.flatten (List.map_congr_left
    (fun yy _ => packRow_eq_map (p ch (paintRect m ch)) _ (yy : Int)))

/-- C3: the code has no overflow check.  For bounding rect `(93, 0, 8, 1)`
(so `rx + rw = 101 > 100`) the packed output depends on the pixel at
`(100, 0)`, a column outside the 100-wide raster: the two painters below
agree everywhere except at `(100, 0)` and produce different byte streams,
and no error is raised. -/
theorem c3_reads_out_of_bounds :
    ((constMetrics ⟨93, 0, 8, 1⟩ 1 0).boundingRect " ").x
      + ((constMetrics ⟨93, 0, 8, 1⟩ 1 0).boundingRect " ").w > 100
  ∧ glyphBytes (constMetrics ⟨93, 0, 8, 1⟩ 1 0) whitePainter " " = List.replicate 13 0
  ∧ glyphBytes (constMetrics ⟨93, 0, 8, 1⟩ 1 0) cornerPainter " "
      = List.replicate 12 0 ++ [1]
  ∧ cornerPainter " " (paintRect (constMetrics ⟨93, 0, 8, 1⟩ 1 0) " ") 100 0 = 0
  ∧ whitePainter " " (paintRect (constMetrics ⟨93, 0, 8, 1⟩ 1 0) " ") 100 0 = 255 := by
  decide

set_option maxRecDepth 4000 in
/-- C4, counterexample: the repertoire constant does not have 186 entries. -/
theorem c4_counterexample : ¬ chars.length = 186 := by
  decide

set_option maxRecDepth 4000 in
/-- C4, amended: the repertoire is a fixed constant of exactly 170 entries,
and the emitted `chars`, `width` and `advance` sequences each have exactly
170 elements, one per repertoire entry in repertoire order. -/
theorem c4_lengths : chars.length = 170
  ∧ ∀ (m : FontMetrics) (p : Painter),
      (fontChars m p).length = 170
    ∧ (fontWidths m).length = 170
    ∧ (fontAdvances m).length = 170 := by
  have h : chars.length = 170 := by decide
  exact ⟨h, fun m p =>
    ⟨by simp [fontChars, h], by simp [fontWidths, h], by simp [fontAdvances, h]⟩⟩

/-- C5: for every glyph the packed byte count is `H * ceil(w / 8)` for the
reported width `w` when `w > 0`, and 0 when `w = 0`. -/
theorem c5_byte_count (m : FontMetrics) (p : Painter) (ch : String)
    (_hH : 0 ≤ m.height) :
    (0 < widthOf m ch →
      (glyphBytes m p ch).length = m.height.toNat * (((widthOf m ch).toNat + 7) / 8))
  ∧ (widthOf m ch = 0 → (glyphBytes m p ch).length = 0) := by
  have hW : (paintRect m ch).x + (paintRect m ch).w = widthOf m ch := by
    rw [paintRect_eq, widthOf_eq]
    simp
  have hlen : (glyphBytes m p ch).length
      = m.height.toNat * (((widthOf m ch).toNat + 7) / 8) := by
    unfold glyphBytes
    rw [packGlyph_length, hW]
  refine ⟨fun _ => hlen, fun h0 => ?_⟩
  rw [hlen, h0]
  simp

/-- C5 witness: rect `(0, 0, 9, 1)` with `H = 1` packs `1 * ceil(9/8) = 2`
bytes. -/
theorem c5_witness :
    (0 : Int) ≤ (constMetrics ⟨0, 0, 9, 1⟩ 1 0).height
  ∧ 0 < widthOf (constMetrics ⟨0, 0, 9, 1⟩ 1 0) "A"
  ∧ (glyphBytes (constMetrics ⟨0, 0, 9, 1⟩ 1 0) blackPainter "A").length
      = (constMetrics ⟨0, 0, 9, 1⟩ 1 0).height.toNat
        * (((widthOf (constMetrics ⟨0, 0, 9, 1⟩ 1 0) "A").toNat + 7) / 8) :=
  ⟨by decide, by decide,
    (c5_byte_count (constMetrics ⟨0, 0, 9, 1⟩ 1 0) blackPainter "A" (by decide)).1
      (by decide)⟩

/-- C6: within a group of `left` columns, bit `(left - 1) - x` of the
emitted byte is set exactly when the pixel at `(xByte + x, y)` has blue
channel below 128; hence the MSB of a full group is its leftmost pixel and
a trailing group of `k` columns packs its leftmost pixel at bit `k - 1`. -/
theorem c6_bit_order (img : Image) (xByte y left x : Int)
    (h0 : 0 ≤ x) (hx : x < left) :
    Nat.testBit (packByte img xByte y left) (left - 1 - x).toNat = true
      ↔ img (xByte + x) y < 128 :=
  packByte_testBit img xByte y left x h0 hx

/-- C6 witness: a lone black pixel at `(1, 0)` in a 3-column group sets
exactly bit `(3 - 1) - 1 = 1`. -/
theorem c6_witness :
    (0 : Int) ≤ 1 ∧ (1 : Int) < 3
  ∧ (Nat.testBit (packByte dotImage 0 0 3) ((3 : Int) - 1 - 1).toNat = true
      ↔ dotImage (0 + 1) 0 < 128) :=
  ⟨by decide, by decide, c6_bit_order dotImage 0 0 3 1 (by decide) (by decide)⟩

/-- C7: the oracle's `y` and `h` are discarded — the rect handed to the
painter and scan is `(0, 0, rx + rw, H)` — and the packed bytes are
unchanged under any override of the bounding rect's vertical components,
so every glyph covers rows `[0, H)` of the line rather than its own
vertical extent. -/
theorem c7_rows_full_height : ∀ (m : FontMetrics) (p : Painter) (ch : String)
    (ry rh : Int),
    paintRect m ch
      = ⟨0, 0, (m.boundingRect ch).x + (m.boundingRect ch).w, m.height⟩
  ∧ glyphBytes (overrideYH m ch ry rh) p ch = glyphBytes m p ch := by
  intro m p ch ry rh
  refine ⟨paintRect_eq m ch, ?_⟩
  have hpr : paintRect (overrideYH m ch ry rh) ch = paintRect m ch := by
    rw [paintRect_eq, paintRect_eq]
    simp [overrideYH]
  unfold glyphBytes
  rw [hpr]
  rfl

/-- C8, counterexample: bounding rect `(3, 0, 0, 5)` has `rw = 0`, yet the
code still emits one byte per row (the scan bound is `rx + rw = 3 > 0`) and
reports width 3, not 0. -/
theorem c8_counterexample :
    ((constMetrics ⟨3, 0, 0, 5⟩ 1 4).boundingRect " ").w = 0
  ∧ glyphBytes (constMetrics ⟨3, 0, 0, 5⟩ 1 4) whitePainter " " = [0]
  ∧ glyphBytes (constMetrics ⟨3, 0, 0, 5⟩ 1 4) whitePainter " " ≠ []
  ∧ widthOf (constMetrics ⟨3, 0, 0, 5⟩ 1 4) " " = 3 := by
  decide

/-- C8, amended: a glyph produces zero bytes exactly when its scan bound
`rx + rw` is not positive — in particular for the all-zero bounding rect of
a space — and then the reported width `rx + rw` is also not positive (0 for
the all-zero rect), while `advance_px` still records the oracle's
advance. -/
theorem c8_empty_glyph (m : FontMetrics) (p : Painter) (ch : String)
    (hw : (m.boundingRect ch).x + (m.boundingRect ch).w ≤ 0) :
    glyphBytes m p ch = []
  ∧ widthOf m ch ≤ 0
  ∧ advanceOf m ch = m.horizontalAdvance ch := by
  have hW : (paintRect m ch).x + (paintRect m ch).w
      = (m.boundingRect ch).x + (m.boundingRect ch).w := by
    rw [paintRect_eq]
    simp
  refine ⟨?_, by rw [widthOf_eq]; exact hw, rfl⟩
  have hlen : (glyphBytes m p ch).length = 0 := by
    unfold glyphBytes
    rw [packGlyph_length, hW]
    have hz : ((m.boundingRect ch).x + (m.boundingRect ch).w).toNat = 0 := by omega
    rw [hz]
    norm_num
  exact List.length_eq_zero.mp hlen

/-- C8 witness: the spec's empty-glyph scenario, rect `(0, 0, 0, 0)` with
advance 4 and `H = 8`: no bytes, width 0, advance 4. -/
theorem c8_witness :
    ((constMetrics ⟨0, 0, 0, 0⟩ 8 4).boundingRect " ").x
      + ((constMetrics ⟨0, 0, 0, 0⟩ 8 4).boundingRect " ").w ≤ 0
  ∧ (glyphBytes (constMetrics ⟨0, 0, 0, 0⟩ 8 4) blackPainter " " = []
    ∧ widthOf (constMetrics ⟨0, 0, 0, 0⟩ 8 4) " " ≤ 0
    ∧ advanceOf (constMetrics ⟨0, 0, 0, 0⟩ 8 4) " "
        = (constMetrics ⟨0, 0, 0, 0⟩ 8 4).horizontalAdvance " ") :=
  ⟨by decide, c8_empty_glyph (constMetrics ⟨0, 0, 0, 0⟩ 8 4) blackPainter " " (by decide)⟩

/-- C9: every packed byte is emitted as `0x` plus minimal lowercase hex
digits plus a comma (also after the last byte of a glyph), and the `width`
and `advance` sequences are decimal integers each followed by a comma with
a line break before every entry whose index is a nonzero multiple of 32. -/
theorem c9_output_format :
    (∀ v : Nat, emitByte v = "0x" ++ String.mk (Nat.toDigits 16 v) ++ ",")
  ∧ (∀ v : Nat, v ≤ 255 → hexLowerNoPad (Nat.toDigits 16 v) v)
  ∧ (∀ bs : List Nat, emitGlyph bs
      = "        &[" ++ String.join (bs.map emitByte) ++ "],\n")
  ∧ (∀ vals : List Int, emitSeq vals = wrappedSeq vals) :=
  ⟨fun _ => rfl, toDigits_hexLowerNoPad, fun _ => rfl, emitSeq_eq_wrappedSeq⟩

/-- C9 witness: byte value 255 is emitted as `0xff,` and its digits are
minimal lowercase hex. -/
theorem c9_witness :
    emitByte 255 = "0xff," ∧ hexLowerNoPad (Nat.toDigits 16 255) 255 := by
  exact ⟨by decide, c9_output_format.2.1 255 (by decide)⟩

/-- C10: every packed byte the packer produces is at most 255: each group
has at most 8 columns, so all set bit positions are below 8. -/
theorem c10_byte_in_range (m : FontMetrics) (p : Painter) (ch : String)
    (b : Nat) (hb : b ∈ glyphBytes m p ch) : b ≤ 255 := by
  obtain ⟨y, k, left, h8, rfl⟩ := glyphBytes_mem m p ch b hb
  exact packByte_le _ _ _ _ h8

/-- C10 witness: the byte 1 produced for a single black pixel is within
range. -/
theorem c10_witness :
    1 ∈ glyphBytes (constMetrics ⟨0, 0, 1, 1⟩ 1 0) blackPainter "A"
  ∧ (1 : Nat) ≤ 255 :=
  ⟨by decide,
    c10_byte_in_range (constMetrics ⟨0, 0, 1, 1⟩ 1 0) blackPainter "A" 1 (by decide)⟩

end BmpFont
